import Mathlib

/-!
Shallow embedding of the core of the Bulk repository that the claims
concern: the block partitioning arithmetic of
`src/include/bulk/partitionings/block.hpp` and the distributed FFT engine
of `src/examples/fft.cpp`.  Index tuples (`index_type<K>` in the source,
arrays of `K` machine integers) are embedded as functions `Nat → Nat`;
all quantities appearing in the claims are non-negative, so C++ `int`
arithmetic on them coincides with `Nat` arithmetic, and `%` and `/` on
non-negative `int` values are `Nat.mod` and `Nat.div`.
-/

namespace Bulk

/-- Helper describing the constructor loops of `block_partitioning`: the
grid axis `i < G` (if any) with `axes i = d`.  The loops of the source
write to entry `axes_[i]` for each `i`; under the data-model invariant
that `axes_` is injective, each entry `d` is written at most once, by the
unique `i` returned here. -/
def partAxis (G : Nat) (axes : Nat → Nat) (d : Nat) : Option Nat :=
  (List.range G).find? (fun i => axes i == d)

/-- Mirrors the `block_partitioning` constructor, block.hpp lines 39 to 44:
`block_size_` starts as `data_size` and on each partitioned axis becomes
`(data_size[d] - 1) / grid[i] + 1`. -/
def block_size (G : Nat) (dataSize grid axes : Nat → Nat) (d : Nat) : Nat :=
  match partAxis G axes d with
  | some i => (dataSize d - 1) / grid i + 1
  | none => dataSize d

/-- Mirrors `block_partitioning::global_to_local`, block.hpp lines 48 to 54:
`index[d] % block_size_[d]` on every data axis `d < D`. -/
def global_to_local (G : Nat) (dataSize grid axes : Nat → Nat)
    (index : Nat → Nat) (d : Nat) : Nat :=
  index d % block_size G dataSize grid axes d

/-- Mirrors `block_partitioning::local_size`, block.hpp lines 58 to 68:
`size[dim] = (global_size_[dim] + grid_size_[i] - idxs[dim] - 1) / grid_size_[i]`
on each partitioned axis `dim = axes_[i]`, `global_size_[dim]` elsewhere.
The source indexes the grid coordinate tuple `idxs` by the data axis
`dim`, exactly as written on line 64. -/
def local_size (G : Nat) (dataSize grid axes : Nat → Nat)
    (idxs : Nat → Nat) (dim : Nat) : Nat :=
  match partAxis G axes dim with
  | some i => (dataSize dim + grid i - idxs dim - 1) / grid i
  | none => dataSize dim

/-- Mirrors `block_partitioning::grid_owner`, block.hpp lines 71 to 78:
`result[i] = xs[d] / block_size_[d]` with `d = axes_[i]`. -/
def grid_owner (G : Nat) (dataSize grid axes : Nat → Nat)
    (xs : Nat → Nat) (i : Nat) : Nat :=
  xs (axes i) / block_size G dataSize grid axes (axes i)

/-- Modelled from the spec: `util::unflatten` is not under src.  The spec
states that `origin` converts the linear processor id to a multi index
over the grid by row-major unflattening, so the last grid axis varies
fastest. -/
def unflattenRM : Nat → (Nat → Nat) → Nat → Nat → Nat
  | 0, _, _, _ => 0
  | G+1, size, t, i => if i = G then t % size G else unflattenRM G size (t / size G) i

/-- Modelled from the spec: the row-major flattening of a grid multi index,
inverse to `unflattenRM` on in-range tuples; the last grid axis varies
fastest. -/
def flattenRM : Nat → (Nat → Nat) → (Nat → Nat) → Nat
  | 0, _, _ => 0
  | G+1, size, idx => flattenRM G size idx * size G + idx G

/-- Mirrors `block_partitioning::origin`, block.hpp lines 84 to 92:
unflatten the linear id `t` over the grid, then on each partitioned axis
`d = axes_[i]` return `block_size_[d] * multi_index[d]`, and `0`
elsewhere.  The source indexes `multi_index` (a `G`-tuple) by the data
axis `d`, exactly as written on line 89. -/
def origin (G : Nat) (dataSize grid axes : Nat → Nat) (t : Nat) (d : Nat) : Nat :=
  match partAxis G axes d with
  | some _ => block_size G dataSize grid axes d * unflattenRM G grid t d
  | none => 0

/-- Mirrors `BulkFFT::isPowerOfTwo`, fft.cpp line 181:
`(n & (n - 1)) == 0`. -/
def isPowerOfTwo (n : Nat) : Bool := n &&& (n - 1) == 0

/-- Mirrors the constructor check of `BulkFFT`, fft.cpp lines 90 to 93:
construction logs and aborts iff `n` or `p` fails `isPowerOfTwo`. -/
def ctor_check_fails (n p : Nat) : Bool := !isPowerOfTwo n || !isPowerOfTwo p

/-- Mirrors the coarray size check at the start of `BulkFFT::fft`,
fft.cpp lines 161 to 166: the transform call logs and aborts iff the
local buffer size differs from `n / p`. -/
def fft_size_check_fails (len n p : Nat) : Bool := len != n / p

/-- Fuel-indexed mirror of the loop `for (c = 1; c < p; c *= np);` of
`bspfft_init`, fft.cpp lines 190 to 191, started at `c`.  `some c` is the
final value of `c`; `none` means the loop has not finished within `fuel`
iterations (the C++ loop has no fuel; divergence is `none` for every
fuel). -/
def k1LoopF (np p : Nat) : Nat → Nat → Option Nat
  | 0, _ => none
  | fuel+1, c => if c < p then k1LoopF np p fuel (c * np) else some c

/-- Fuel-indexed mirror of the round-counting loop
`for (c = k1; c <= p; c *= np) count++;` of `bspfft_init`, fft.cpp lines
206 to 207, started at `c`.  `some k` is the final value of `count`. -/
def countLoopF (np p : Nat) : Nat → Nat → Option Nat
  | 0, _ => none
  | fuel+1, c =>
    if c ≤ p then (countLoopF np p fuel (c * np)).map (fun x => x + 1)
    else some 0

/-- Fuel-indexed mirror of the inner loop of `bitrev_init`, fft.cpp lines
233 to 237: `for (k = 1; k < n; k <<= 1) { val <<= 1; val |= remaining & 1;
remaining >>= 1; }`.  Since `val` is shifted left before the or with a
one-bit value, `val <<= 1; val |= b` is `val * 2 + b`, and
`remaining & 1` is `remaining % 2`, `remaining >>= 1` is
`remaining / 2`.  Fuel `n` is enough for the loop to finish, because `k`
doubles from 1. -/
def revLoopF (n : Nat) : Nat → Nat → Nat → Nat → Nat
  | 0, _, val, _ => val
  | fuel+1, k, val, remaining =>
    if k < n then revLoopF n fuel (k * 2) (val * 2 + remaining % 2) (remaining / 2)
    else val

/-- Mirrors `BulkFFT::bitrev_init`, fft.cpp lines 223 to 240: for `n = 1`
the table is `[0]`; otherwise entry `j` is `j` with its bits reversed by
the inner loop. -/
def bitrev_init (n : Nat) : List Nat :=
  if n = 1 then [0]
  else (List.range n).map (fun j => revLoopF n n 1 0 j)

/-- Reversal of the low `m` bits of `j`: the mathematical value computed
by the inner loop of `bitrev_init` after `m` iterations. -/
def revBits : Nat → Nat → Nat
  | 0, _ => 0
  | m+1, j => revBits m (j / 2) + j % 2 * 2 ^ m

/-- Mirrors `int ratio = c1 / c0;` in `bspredistr`, fft.cpp line 334. -/
def bspredistr_ratio (c0 c1 : Nat) : Nat := c1 / c0

/-- Mirrors `int size = std::max(np / ratio, 1);` in `bspredistr`,
fft.cpp line 335. -/
def bspredistr_size (np ratio : Nat) : Nat := max (np / ratio) 1

/-- Mirrors `int npackets = np / size;` in `bspredistr`, fft.cpp
line 336. -/
def bspredistr_npackets (np size : Nat) : Nat := np / size

/-- Mirrors `int jglob = j2 * c0 * np + j * c0 + j0;` in `bspredistr`,
fft.cpp line 353, with `j0 = t % c0` and `j2 = t / c0` (lines 341 to 346)
where `t` is the processor number `s`, or `rho_p[s]` in reversed mode. -/
def bspredistr_jglob (np c0 t j : Nat) : Nat :=
  t / c0 * c0 * np + j * c0 + t % c0

/-- Mirrors `int destproc = (jglob / (c1 * np)) * c1 + jglob % c1;` in
`bspredistr`, fft.cpp line 354. -/
def bspredistr_destproc (np c1 jglob : Nat) : Nat :=
  jglob / (c1 * np) * c1 + jglob % c1

/-- Mirrors `int destindex = (jglob % (c1 * np)) / c1;` in `bspredistr`,
fft.cpp line 355. -/
def bspredistr_destindex (np c1 jglob : Nat) : Nat :=
  jglob % (c1 * np) / c1

/-- C5: the claim states that on a partitioned axis `local_size` returns
`BlockShape[d]` for every grid coordinate except the last and the
remainder `GlobalShape[d] - (GridExtent - 1) * BlockShape[d]` for the
last.  At `D = G = 1`, `GlobalShape = [4]`, `GridExtent = [3]` the block
size is `2`, so the claim gives sizes `(2, 2, 0)`; the code returns the
balanced value `ceil((4 - q) / 3)`, which is `1` at the non-last grid
coordinate `q = 1`.  The third conjunct shows the claimed value `2` is
what the class's own ownership functions assign to coordinate `1`
(elements `2` and `3`), so `local_size` contradicts `grid_owner` and the
claim is the consistent reading. -/
theorem local_size_contradicts_block_size :
    local_size 1 (fun _ => 4) (fun _ => 3) (fun i => i) (fun _ => 1) 0 = 1
    ∧ block_size 1 (fun _ => 4) (fun _ => 3) (fun i => i) 0 = 2
    ∧ ((List.range 4).filter
        (fun g => grid_owner 1 (fun _ => 4) (fun _ => 3) (fun i => i)
          (fun _ => g) 0 == 1)).length = 2
    ∧ (1 : Nat) ≠ 2 := by
  decide

/-- C3: at `n = p = 2` the local length is `np = 1` and the search
`for (c = 1; c < p; c *= np);` of `bspfft_init` never terminates: `c`
stays at `1 < p` forever, so for every fuel the fueled mirror of the
loop is still running.  Engine construction therefore does not terminate
and never produces `k1`, contradicting the claim. -/
theorem k1_search_diverges_when_n_eq_p :
    ∀ fuel, k1LoopF 1 2 fuel 1 = none := by
  intro fuel
  induction fuel with
  | zero => rfl
  | succ f ih => simpa [k1LoopF] using ih

set_option maxRecDepth 4000 in
/-- C4: `n = 2`, `p = 4` (both powers of two, `p > n`) is a
configuration error according to the claim, yet the constructor check
passes, and instead of a log-and-abort the initialization hangs: with
`np = n / p = 0` the `k1` search loop makes no progress for 1000
iterations (and, as shown by `config_error_detection_amended`, for any
number of iterations). -/
theorem config_check_misses_p_gt_n :
    ctor_check_fails 2 4 = false ∧ k1LoopF (2 / 4) 4 1000 1 = none := by
  decide

lemma testBit_two_mul_zero (a : Nat) : Nat.testBit (2 * a) 0 = false := by
  simp [Nat.testBit_zero, Nat.mul_mod_right]

lemma testBit_two_mul_succ (a i : Nat) :
    Nat.testBit (2 * a) (i + 1) = Nat.testBit a i := by
  rw [Nat.testBit_succ]
  congr 1
  omega

lemma testBit_two_mul_add_one_succ (a i : Nat) :
    Nat.testBit (2 * a + 1) (i + 1) = Nat.testBit a i := by
  rw [Nat.testBit_succ]
  congr 1
  omega

/-- Bit identity behind the `n & (n - 1)` trick: an even number anded
with an odd number has the even number's low zero bit. -/
lemma land_even_odd (a b : Nat) : 2 * a &&& (2 * b + 1) = 2 * (a &&& b) := by
  apply Nat.eq_of_testBit_eq
  intro i
  cases i with
  | zero => simp [Nat.testBit_land, testBit_two_mul_zero]
  | succ i =>
    simp [Nat.testBit_land, testBit_two_mul_succ, testBit_two_mul_add_one_succ]

/-- Companion identity to `land_even_odd` with the parities flipped. -/
lemma land_odd_even (a b : Nat) : (2 * a + 1) &&& (2 * b) = 2 * (a &&& b) := by
  apply Nat.eq_of_testBit_eq
  intro i
  cases i with
  | zero => simp [Nat.testBit_land, testBit_two_mul_zero]
  | succ i =>
    simp [Nat.testBit_land, testBit_two_mul_succ, testBit_two_mul_add_one_succ]

/-- Soundness half of the `isPowerOfTwo` bit trick for positive inputs. -/
lemma exists_pow_of_land_pred_eq_zero (n : Nat) :
    1 ≤ n → n &&& (n - 1) = 0 → ∃ k, n = 2 ^ k := by
  induction n using Nat.strong_induction_on with
  | _ n ih =>
    intro h1 h
    rcases Nat.even_or_odd n with he | ho
    · obtain ⟨m, hm⟩ := he
      have hm2 : n = 2 * m := by omega
      have hm1 : 1 ≤ m := by omega
      rw [hm2] at h
      have e : 2 * m - 1 = 2 * (m - 1) + 1 := by omega
      rw [e, land_even_odd] at h
      obtain ⟨k, hk⟩ := ih m (by omega) hm1 (by omega)
      exact ⟨k + 1, by rw [hm2, hk]; ring⟩
    · obtain ⟨m, hmo⟩ := ho
      rcases Nat.eq_zero_or_pos m with h0 | hpos
      · exact ⟨0, by omega⟩
      · rw [hmo] at h
        have e : 2 * m + 1 - 1 = 2 * m := by omega
        rw [e, land_odd_even, Nat.and_self] at h
        exfalso
        omega

/-- Completeness half of the `isPowerOfTwo` bit trick. -/
lemma pow_land_pred_eq_zero (k : Nat) : 2 ^ k &&& (2 ^ k - 1) = 0 := by
  apply Nat.eq_of_testBit_eq
  intro i
  simp only [Nat.testBit_land, Nat.testBit_two_pow, Nat.testBit_two_pow_sub_one,
    Nat.zero_testBit, Bool.and_eq_false_iff, decide_eq_false_iff_not]
  omega

/-- The source's bit trick agrees with being a power of two on positive
inputs (it wrongly accepts `0`, which is why the positivity hypothesis
is needed). -/
lemma isPowerOfTwo_iff (n : Nat) (h1 : 1 ≤ n) :
    isPowerOfTwo n = true ↔ ∃ k, n = 2 ^ k := by
  unfold isPowerOfTwo
  rw [beq_iff_eq]
  constructor
  · exact exists_pow_of_land_pred_eq_zero n h1
  · rintro ⟨k, rfl⟩
    exact pow_land_pred_eq_zero k

/-- With `np = 0` (the case `p > n`) the `k1` search loop of
`bspfft_init` never terminates: `c` collapses to `0` and stays below
`p`. -/
lemma k1LoopF_np_zero_diverges (p : Nat) (hp : 2 ≤ p) :
    ∀ fuel c, c ≤ 1 → k1LoopF 0 p fuel c = none := by
  intro fuel
  induction fuel with
  | zero => intro c _; rfl
  | succ f ih =>
    intro c hc
    have hcp : c < p := by omega
    simp [k1LoopF, hcp]
    exact ih 0 (by omega)

/-- C4 amended: for positive `n` and `p`, the constructor check passes
exactly when both `n` and `p` are powers of two, and the buffer check of
`fft` fires exactly when the supplied length differs from `n / p`; but
`p > n` is not detected anywhere: for powers of two with `p > n` the
constructor check passes and initialization then runs forever in the
`k1` search loop (`np = 0`), so the error is never reported through the
log-and-abort path. -/
theorem config_error_detection_amended :
    (∀ n p : Nat, 1 ≤ n → 1 ≤ p →
      (ctor_check_fails n p = false ↔ (∃ i, n = 2 ^ i) ∧ ∃ j, p = 2 ^ j))
    ∧ (∀ k l : Nat, k < l →
        ctor_check_fails (2 ^ k) (2 ^ l) = false
        ∧ ∀ fuel, k1LoopF (2 ^ k / 2 ^ l) (2 ^ l) fuel 1 = none)
    ∧ (∀ len n p : Nat, fft_size_check_fails len n p = true ↔ len ≠ n / p) := by
  refine ⟨?_, ?_, ?_⟩
  · intro n p hn hp
    have hb : ctor_check_fails n p = false
        ↔ (isPowerOfTwo n = true ∧ isPowerOfTwo p = true) := by
      unfold ctor_check_fails
      cases isPowerOfTwo n <;> cases isPowerOfTwo p <;> simp
    rw [hb, isPowerOfTwo_iff n hn, isPowerOfTwo_iff p hp]
  · intro k l hkl
    have hdiv : 2 ^ k / 2 ^ l = 0 :=
      Nat.div_eq_of_lt (Nat.pow_lt_pow_right (by norm_num) hkl)
    have hp2 : 2 ≤ 2 ^ l := by
      calc 2 = 2 ^ 1 := by norm_num
      _ ≤ 2 ^ l := Nat.pow_le_pow_right (by norm_num) (by omega)
    constructor
    · have h1 : isPowerOfTwo (2 ^ k) = true :=
        (isPowerOfTwo_iff (2 ^ k) Nat.one_le_two_pow).mpr ⟨k, rfl⟩
      have h2 : isPowerOfTwo (2 ^ l) = true :=
        (isPowerOfTwo_iff (2 ^ l) Nat.one_le_two_pow).mpr ⟨l, rfl⟩
      unfold ctor_check_fails
      rw [h1, h2]
      rfl
    · intro fuel
      rw [hdiv]
      exact k1LoopF_np_zero_diverges (2 ^ l) hp2 fuel 1 (by omega)
  · intro len n p
    simp [fft_size_check_fails]

/-- C4 witness: the amended theorem applied at `n = 2^0`, `p = 2^1`
(`p > n`): the initialization loop makes no progress in five
iterations. -/
theorem config_error_detection_amended_witness :
    k1LoopF (2 ^ 0 / 2 ^ 1) (2 ^ 1) 5 1 = none :=
  (config_error_detection_amended.2.1 0 1 (by norm_num)).2 5

/-- Step identity for the ceiling division driving both `bspfft_init`
loops. -/
lemma ceil_div_step (g t : Nat) (hg : 1 ≤ g) (ht : 1 ≤ t) :
    (t + g - 1) / g = (t - g + g - 1) / g + 1 := by
  rcases le_or_lt g t with h | h
  · have e1 : t - g + g - 1 = t - 1 := by omega
    have e2 : t + g - 1 = (t - 1) + g := by omega
    rw [e1, e2, Nat.add_div_right _ (by omega)]
  · have e2 : t + g - 1 = (t - 1) + g := by omega
    rw [e2, Nat.add_div_right _ (by omega)]
    have e1 : t - g + g - 1 = g - 1 := by omega
    rw [e1, Nat.div_eq_of_lt (by omega), Nat.div_eq_of_lt (by omega)]

/-- Closed form of the `k1` search loop on powers of two: starting from
`c = 2 ^ e` it stops at the first `c * np ^ t` that reaches
`p = 2 ^ b`. -/
lemma k1LoopF_pow (g b : Nat) (hg : 1 ≤ g) :
    ∀ fuel e, (b - e + g - 1) / g + 1 ≤ fuel →
      k1LoopF (2 ^ g) (2 ^ b) fuel (2 ^ e)
        = some (2 ^ (e + g * ((b - e + g - 1) / g))) := by
  intro fuel
  induction fuel with
  | zero => intro e hf; exact absurd hf (Nat.not_succ_le_zero _)
  | succ f ih =>
    intro e hf
    by_cases he : e < b
    · have hlt : 2 ^ e < 2 ^ b := Nat.pow_lt_pow_right (by norm_num) he
      have hstep : (b - e + g - 1) / g = (b - (e + g) + g - 1) / g + 1 := by
        have hbe : b - (e + g) = (b - e) - g := by omega
        rw [hbe]
        exact ceil_div_step g (b - e) hg (by omega)
      simp only [k1LoopF]
      rw [if_pos hlt]
      have hmul : 2 ^ e * 2 ^ g = 2 ^ (e + g) := (pow_add 2 e g).symm
      have hfih : (b - (e + g) + g - 1) / g + 1 ≤ f := by
        obtain ⟨A, hA⟩ : ∃ A, (b - (e + g) + g - 1) / g = A := ⟨_, rfl⟩
        obtain ⟨B, hB⟩ : ∃ B, (b - e + g - 1) / g = B := ⟨_, rfl⟩
        rw [hA] at hstep ⊢
        rw [hB] at hstep hf
        omega
      rw [hmul, ih (e + g) hfih]
      have hexp : (e + g) + g * ((b - (e + g) + g - 1) / g)
          = e + g * ((b - e + g - 1) / g) := by
        rw [hstep]
        ring
      rw [hexp]
    · have h0 : (b - e + g - 1) / g = 0 := by
        have hbe : b - e + g - 1 = g - 1 := by omega
        rw [hbe]
        exact Nat.div_eq_of_lt (by omega)
      have hge : ¬ 2 ^ e < 2 ^ b := by
        have : 2 ^ b ≤ 2 ^ e := Nat.pow_le_pow_right (by norm_num) (by omega)
        omega
      simp only [k1LoopF]
      rw [if_neg hge, h0]
      simp

/-- Closed form of the round-counting loop on powers of two: starting
from `c = 2 ^ e ≤ p = 2 ^ b` it counts `(b - e) / g + 1` rounds.  The
fueled loop needs one spare iteration to see the failing guard. -/
lemma countLoopF_pow (g b : Nat) (hg : 1 ≤ g) :
    ∀ fuel e, e ≤ b → (b - e) / g + 2 ≤ fuel →
      countLoopF (2 ^ g) (2 ^ b) fuel (2 ^ e) = some ((b - e) / g + 1) := by
  intro fuel
  induction fuel with
  | zero => intro e _ hf; exact absurd hf (Nat.not_succ_le_zero _)
  | succ f ih =>
    intro e he hf
    have hle : 2 ^ e ≤ 2 ^ b := Nat.pow_le_pow_right (by norm_num) he
    simp only [countLoopF]
    rw [if_pos hle]
    have hmul : 2 ^ e * 2 ^ g = 2 ^ (e + g) := (pow_add 2 e g).symm
    rw [hmul]
    by_cases hcase : e + g ≤ b
    · have hdiv : (b - e) / g = (b - (e + g)) / g + 1 := by
        have e1 : b - e = (b - (e + g)) + g := by omega
        rw [e1, Nat.add_div_right _ (by omega)]
      have hfih : (b - (e + g)) / g + 2 ≤ f := by
        obtain ⟨A, hA⟩ : ∃ A, (b - (e + g)) / g = A := ⟨_, rfl⟩
        obtain ⟨B, hB⟩ : ∃ B, (b - e) / g = B := ⟨_, rfl⟩
        rw [hA] at hdiv ⊢
        rw [hB] at hdiv hf
        omega
      rw [ih (e + g) hcase hfih]
      simp only [Option.map_some']
      rw [hdiv]
    · have hlt : 2 ^ b < 2 ^ (e + g) := Nat.pow_lt_pow_right (by norm_num) (by omega)
      have hf1 : 1 ≤ f := by
        obtain ⟨B, hB⟩ : ∃ B, (b - e) / g = B := ⟨_, rfl⟩
        rw [hB] at hf
        omega
      obtain ⟨f2, rfl⟩ : ∃ f2, f = f2 + 1 := ⟨f - 1, by omega⟩
      have hdiv0 : (b - e) / g = 0 := Nat.div_eq_of_lt (by omega)
      simp only [countLoopF]
      rw [if_neg (by omega)]
      simp only [Option.map_some']
      rw [hdiv0]

/-- C8 amended: for `p = 2 ^ b` with `b ≥ 1` and `np = 2 ^ g` with
`g ≥ 1` (so `1 < p < n = p * np`), `bspfft_init` computes some `k1` and
counts `(b - 1) / g + 1 = ceil(log_np p)` redistribution rounds, which
is at least one and is one more than `log_np (p / k1)`: the last
conjunct exhibits `p / k1` as exactly the `(count - 1)`-th power of
`np`.  For `p = 1` the loop counts zero rounds, so the claimed lower
bound of one round also fails there. -/
theorem round_count_amended :
    (∀ g b fuel : Nat, 1 ≤ g → 1 ≤ b → b + 2 ≤ fuel →
      ∃ c, k1LoopF (2 ^ g) (2 ^ b) fuel 1 = some c
        ∧ countLoopF (2 ^ g) (2 ^ b) fuel (2 ^ (b + g) / c) = some ((b - 1) / g + 1)
        ∧ 1 ≤ (b - 1) / g + 1
        ∧ 2 ^ b / (2 ^ (b + g) / c) = (2 ^ g) ^ ((b - 1) / g))
    ∧ (∀ g fuel : Nat, 1 ≤ g → 1 ≤ fuel →
        k1LoopF (2 ^ g) 1 fuel 1 = some 1
        ∧ countLoopF (2 ^ g) 1 fuel (2 ^ g / 1) = some 0) := by
  constructor
  · intro g b fuel hg hb hf
    obtain ⟨R, hR⟩ : ∃ R, (b - 1) / g = R := ⟨_, rfl⟩
    have hRb : R ≤ b - 1 := by rw [← hR]; exact Nat.div_le_self _ _
    have hq2 : (b + g - 1) / g = R + 1 := by
      have e1 : b + g - 1 = (b - 1) + g := by omega
      rw [e1, Nat.add_div_right _ (by omega), hR]
    have hgR : g * R ≤ b - 1 := by
      rw [← hR]
      calc g * ((b - 1) / g) = (b - 1) / g * g := by ring
      _ ≤ b - 1 := Nat.div_mul_le_self _ _
    have hbound : (b - 0 + g - 1) / g + 1 ≤ fuel := by
      rw [Nat.sub_zero, hq2]
      omega
    have hk := k1LoopF_pow g b hg fuel 0 hbound
    rw [Nat.sub_zero, hq2, Nat.zero_add] at hk
    have hgq : g * (R + 1) = g * R + g := by rw [mul_add, mul_one]
    have hediv : 2 ^ (b + g) / 2 ^ (g * (R + 1)) = 2 ^ (b + g - (g * R + g)) := by
      rw [hgq]
      exact Nat.pow_div (by omega) (by norm_num)
    have he0b : b + g - (g * R + g) = b - g * R := by omega
    have he0le2 : b - g * R ≤ b := by omega
    have hbcount : b - (b - g * R) = g * R := by omega
    have hcountbound : (b - (b - g * R)) / g + 2 ≤ fuel := by
      rw [hbcount, Nat.mul_div_cancel_left _ (by omega : 0 < g)]
      omega
    have hcount := countLoopF_pow g b hg fuel (b - g * R) he0le2 hcountbound
    rw [hbcount, Nat.mul_div_cancel_left _ (by omega : 0 < g)] at hcount
    refine ⟨2 ^ (g * (R + 1)), ?_, ?_, ?_, ?_⟩
    · have h1 : (1 : Nat) = 2 ^ 0 := by norm_num
      rw [h1]
      exact hk
    · rw [hediv, he0b, hR]
      exact hcount
    · rw [hR]
      exact Nat.succ_le_succ (Nat.zero_le _)
    · rw [hediv, he0b, hR]
      rw [Nat.pow_div (by omega) (by norm_num), hbcount, pow_mul]
  · intro g fuel hg hfuel
    obtain ⟨f, rfl⟩ : ∃ f, fuel = f + 1 := ⟨fuel - 1, by omega⟩
    have h2g : 2 ≤ 2 ^ g := by
      calc 2 = 2 ^ 1 := by norm_num
      _ ≤ 2 ^ g := Nat.pow_le_pow_right (by norm_num) (by omega)
    constructor
    · simp only [k1LoopF]
      rw [if_neg (by omega)]
    · simp only [countLoopF]
      rw [Nat.div_one, if_neg (by omega)]

/-- C8 witness: the amended round-count theorem applied at `np = 2`,
`p = 4` (`n = 8`): `k1 = 2` and two rounds, with `p / k1 = np ^ 1`. -/
theorem round_count_amended_witness :
    ∃ c, k1LoopF (2 ^ 1) (2 ^ 2) 4 1 = some c
      ∧ countLoopF (2 ^ 1) (2 ^ 2) 4 (2 ^ (2 + 1) / c) = some ((2 - 1) / 1 + 1)
      ∧ 1 ≤ (2 - 1) / 1 + 1
      ∧ 2 ^ 2 / (2 ^ (2 + 1) / c) = (2 ^ 1) ^ ((2 - 1) / 1) :=
  round_count_amended.1 1 2 4 (by norm_num) (by norm_num) (by norm_num)

/-- The reversal of `m` bits is bounded by `2 ^ m`. -/
lemma revBits_lt (m : Nat) : ∀ j, revBits m j < 2 ^ m := by
  induction m with
  | zero => intro j; simp [revBits]
  | succ m ih =>
    intro j
    have h1 := ih (j / 2)
    have h2 : j % 2 ≤ 1 := by omega
    have hun : revBits (m + 1) j = revBits m (j / 2) + j % 2 * 2 ^ m := rfl
    have h3 : j % 2 * 2 ^ m ≤ 2 ^ m := by
      calc j % 2 * 2 ^ m ≤ 1 * 2 ^ m := Nat.mul_le_mul_right _ h2
      _ = 2 ^ m := one_mul _
    have hps : (2 : Nat) ^ (m + 1) = 2 ^ m + 2 ^ m := by rw [pow_succ]; ring
    omega

/-- Bit reversal fixes zero. -/
lemma revBits_zero (m : Nat) : revBits m 0 = 0 := by
  induction m with
  | zero => rfl
  | succ m ih => simp only [revBits, Nat.zero_div, Nat.zero_mod, ih, Nat.zero_mul, Nat.add_zero]

/-- Peeling the reversal from the top instead of the bottom: for
`j < 2 ^ (m + 1)` the reversed value is the reversal of the low `m` bits
shifted up by one, plus the top bit. -/
lemma revBits_high (m : Nat) : ∀ j, j < 2 ^ (m + 1) →
    revBits (m + 1) j = 2 * revBits m (j % 2 ^ m) + j / 2 ^ m := by
  induction m with
  | zero =>
    intro j hj
    interval_cases j <;> simp [revBits]
  | succ m ih =>
    intro j hj
    have hj2 : j / 2 < 2 ^ (m + 1) := by
      rw [Nat.div_lt_iff_lt_mul (by norm_num)]
      calc j < 2 ^ (m + 1 + 1) := hj
      _ = 2 ^ (m + 1) * 2 := pow_succ 2 (m + 1)
    have l1 : j % 2 ^ (m + 1) / 2 = j / 2 % 2 ^ m := by
      have h21 : (2 : Nat) ^ (m + 1) = 2 * 2 ^ m := by rw [pow_succ]; ring
      rw [h21, Nat.mod_mul_right_div_self]
    have l2 : j % 2 ^ (m + 1) % 2 = j % 2 :=
      Nat.mod_mod_of_dvd j (dvd_pow_self 2 (by omega))
    have l3 : j / 2 / 2 ^ m = j / 2 ^ (m + 1) := by
      rw [Nat.div_div_eq_div_mul]
      congr 1
      rw [pow_succ]
      ring
    have unfold1 : revBits (m + 1 + 1) j
        = revBits (m + 1) (j / 2) + j % 2 * 2 ^ (m + 1) := rfl
    have unfold2 : revBits (m + 1) (j % 2 ^ (m + 1))
        = revBits m (j % 2 ^ (m + 1) / 2) + j % 2 ^ (m + 1) % 2 * 2 ^ m := rfl
    rw [unfold1, unfold2, ih (j / 2) hj2, l1, l2, l3]
    ring

/-- Reversing `m` bits twice is the identity below `2 ^ m`. -/
lemma revBits_revBits (m : Nat) : ∀ j, j < 2 ^ m → revBits m (revBits m j) = j := by
  induction m with
  | zero =>
    intro j hj
    have hj0 : j = 0 := by omega
    subst hj0
    rfl
  | succ m ih =>
    intro j hj
    have hj2 : j / 2 < 2 ^ m := by
      rw [Nat.div_lt_iff_lt_mul (by norm_num)]
      calc j < 2 ^ (m + 1) := hj
      _ = 2 ^ m * 2 := pow_succ 2 m
    have hrb := revBits_lt m (j / 2)
    have unfold1 : revBits (m + 1) j = revBits m (j / 2) + j % 2 * 2 ^ m := rfl
    rw [unfold1]
    have h2 : j % 2 ≤ 1 := by omega
    have h3 : j % 2 * 2 ^ m ≤ 2 ^ m := by
      calc j % 2 * 2 ^ m ≤ 1 * 2 ^ m := Nat.mul_le_mul_right _ h2
      _ = 2 ^ m := one_mul _
    have hx : revBits m (j / 2) + j % 2 * 2 ^ m < 2 ^ (m + 1) := by
      have hps : (2 : Nat) ^ (m + 1) = 2 ^ m + 2 ^ m := by rw [pow_succ]; ring
      omega
    rw [revBits_high m _ hx]
    have hcm : j % 2 * 2 ^ m = 2 ^ m * (j % 2) := mul_comm _ _
    have hmod : (revBits m (j / 2) + j % 2 * 2 ^ m) % 2 ^ m = revBits m (j / 2) := by
      rw [hcm, Nat.add_mul_mod_self_left, Nat.mod_eq_of_lt hrb]
    have hdivv : (revBits m (j / 2) + j % 2 * 2 ^ m) / 2 ^ m = j % 2 := by
      rw [hcm, Nat.add_mul_div_left _ _ (Nat.two_pow_pos m), Nat.div_eq_of_lt hrb,
        Nat.zero_add]
    rw [hmod, hdivv, ih (j / 2) hj2]
    omega

/-- The inner loop of `bitrev_init` on length `2 ^ m`, entered with
`k = 2 ^ i`, accumulates the reversal of the remaining `m - i` bits
below the bits already in `val`. -/
lemma revLoopF_spec (m : Nat) : ∀ fuel i val rem, i ≤ m → m - i + 1 ≤ fuel →
    revLoopF (2 ^ m) fuel (2 ^ i) val rem
      = val * 2 ^ (m - i) + revBits (m - i) rem := by
  intro fuel
  induction fuel with
  | zero => intro i val rem h1 h2; exact absurd h2 (Nat.not_succ_le_zero _)
  | succ f ih =>
    intro i val rem h1 h2
    by_cases hi : i < m
    · have hlt : 2 ^ i < 2 ^ m := Nat.pow_lt_pow_right (by norm_num) hi
      simp only [revLoopF]
      rw [if_pos hlt]
      have hmul : 2 ^ i * 2 = 2 ^ (i + 1) := (pow_succ 2 i).symm
      rw [hmul, ih (i + 1) (val * 2 + rem % 2) (rem / 2) (by omega) (by omega)]
      have hmi : m - i = (m - (i + 1)) + 1 := by omega
      rw [hmi]
      have unfoldr : revBits ((m - (i + 1)) + 1) rem
          = revBits (m - (i + 1)) (rem / 2) + rem % 2 * 2 ^ (m - (i + 1)) := rfl
      rw [unfoldr]
      ring
    · have hge : ¬ 2 ^ i < 2 ^ m := by
        have : 2 ^ m ≤ 2 ^ i := Nat.pow_le_pow_right (by norm_num) (by omega)
        omega
      simp only [revLoopF]
      rw [if_neg hge]
      have hmm : m - i = 0 := by omega
      rw [hmm]
      simp [revBits]

/-- `getD` of a mapped range evaluates the mapped function. -/
lemma getD_map_range (f : Nat → Nat) (n j : Nat) (h : j < n) :
    ((List.range n).map f).getD j 0 = f j := by
  rw [List.getD_eq_getElem?_getD, List.getElem?_map, List.getElem?_range h]
  rfl

/-- Entry `j` of the table built by `bitrev_init` for length `2 ^ m` is
the reversal of the low `m` bits of `j`. -/
lemma bitrev_init_getD (m : Nat) : ∀ j, j < 2 ^ m →
    (bitrev_init (2 ^ m)).getD j 0 = revBits m j := by
  intro j hj
  rcases Nat.eq_zero_or_pos m with hm | hm
  · subst hm
    have hj0 : j = 0 := by omega
    subst hj0
    rfl
  · have hne : 2 ^ m ≠ 1 := by
      have : 2 ≤ 2 ^ m := by
        calc 2 = 2 ^ 1 := by norm_num
        _ ≤ 2 ^ m := Nat.pow_le_pow_right (by norm_num) hm
      omega
    unfold bitrev_init
    rw [if_neg hne, getD_map_range _ _ _ hj]
    have h1 : (1 : Nat) = 2 ^ 0 := by norm_num
    have hfuel : m - 0 + 1 ≤ 2 ^ m := by
      have := Nat.lt_two_pow m
      omega
    rw [h1, revLoopF_spec m (2 ^ m) 0 0 j (by omega) hfuel]
    rw [Nat.sub_zero, Nat.zero_mul, Nat.zero_add]

/-- C6: for every power-of-two length `2 ^ m`, the table `rho` built by
`bitrev_init` is an involution (`rho[rho[j]] = j` for `j < 2 ^ m`) and
fixes zero; at `m = 0` the special-cased table is the identity `[0]`. -/
theorem bitrev_involution (m j : Nat) (hj : j < 2 ^ m) :
    (bitrev_init (2 ^ m)).getD ((bitrev_init (2 ^ m)).getD j 0) 0 = j
    ∧ (bitrev_init (2 ^ m)).getD 0 0 = 0 := by
  constructor
  · rw [bitrev_init_getD m j hj, bitrev_init_getD m _ (revBits_lt m j),
      revBits_revBits m j hj]
  · rw [bitrev_init_getD m 0 (Nat.two_pow_pos m), revBits_zero]

/-- C6 witness: the involution theorem applied at length `8`, index `5`:
`rho = [0,4,2,6,1,5,3,7]`, `rho[rho[5]] = rho[5] = 5` and
`rho[0] = 0`. -/
theorem bitrev_involution_witness :
    (bitrev_init (2 ^ 3)).getD ((bitrev_init (2 ^ 3)).getD 5 0) 0 = 5
    ∧ (bitrev_init (2 ^ 3)).getD 0 0 = 0 :=
  bitrev_involution 3 5 (by norm_num)

/-- `find?` over a range returns the first index satisfying the
predicate. -/
lemma find?_range_eq_some_self (p : Nat → Bool) :
    ∀ G d, d < G → p d = true → (∀ i, i < d → p i = false) →
      (List.range G).find? p = some d := by
  intro G
  induction G with
  | zero => intro d hd _ _; omega
  | succ G ih =>
    intro d hd hp hlow
    rw [List.range_succ, List.find?_append]
    rcases Nat.lt_or_ge d G with h | h
    · rw [ih d h hp hlow]
      rfl
    · have hdg : d = G := by omega
      subst hdg
      have hnone : (List.range d).find? p = none := by
        rw [List.find?_eq_none]
        intro x hx
        rw [List.mem_range] at hx
        simp [hlow x hx]
      rw [hnone]
      simp [List.find?, hp]

/-- `find?` over a range misses a predicate false on the range. -/
lemma find?_range_eq_none (p : Nat → Bool) (G : Nat)
    (h : ∀ i, i < G → p i = false) : (List.range G).find? p = none := by
  rw [List.find?_eq_none]
  intro x hx
  rw [List.mem_range] at hx
  simp [h x hx]

/-- With the identity axis map (the source's default `iota_`), data axis
`d` is partitioned by grid axis `d` when `d < G` and is unpartitioned
otherwise. -/
lemma partAxis_id (G : Nat) (axes : Nat → Nat) (hax : ∀ i, i < G → axes i = i)
    (d : Nat) : partAxis G axes d = if d < G then some d else none := by
  by_cases hd : d < G
  · rw [if_pos hd]
    apply find?_range_eq_some_self _ G d hd
    · simp [hax d hd]
    · intro i hi
      rw [hax i (by omega)]
      simp
      omega
  · rw [if_neg hd]
    apply find?_range_eq_none
    intro i hi
    rw [hax i hi]
    simp
    omega

/-- Row-major unflattening inverts row-major flattening on in-range
multi indices. -/
lemma unflatten_flatten (size idx : Nat → Nat) :
    ∀ G, (∀ k, k < G → idx k < size k) →
      ∀ i, i < G → unflattenRM G size (flattenRM G size idx) i = idx i := by
  intro G
  induction G with
  | zero => intro _ i hi; omega
  | succ G ih =>
    intro hbound i hi
    have hsz : 0 < size G := by
      have := hbound G (by omega)
      omega
    have hmod : (flattenRM G size idx * size G + idx G) % size G = idx G := by
      rw [mul_comm, Nat.mul_add_mod, Nat.mod_eq_of_lt (hbound G (by omega))]
    have hdiv : (flattenRM G size idx * size G + idx G) / size G
        = flattenRM G size idx := by
      rw [mul_comm, Nat.mul_add_div hsz, Nat.div_eq_of_lt (hbound G (by omega)),
        Nat.add_zero]
    show unflattenRM (G + 1) size (flattenRM G size idx * size G + idx G) i = idx i
    by_cases hiG : i = G
    · subst hiG
      simp only [unflattenRM, if_pos rfl]
      exact hmod
    · simp only [unflattenRM, if_neg hiG]
      rw [hdiv]
      exact ih (fun k hk => hbound k (by omega)) i (by omega)

/-- C2: the composition identity fails on the code for a non-identity
axis map, because `origin` reads `multi_index[d]` (the data axis)
instead of `multi_index[i]` (block.hpp line 89): at
`D = G = 2`, `GlobalShape = [3,2]`, `ProcessorGrid = [2,3]`,
`AxisMap = [1,0]`, `g = [2,1]` the grid owner is `(1,2)`, flattened id
`5`, and `origin + global_to_local` gives `1` on data axis 0 where `g`
has `2`.  The second conjunct proves the claimed identity does hold on
the code whenever the axis map is the identity on the grid axes (the
default), for every data shape, positive grid, and in-bounds global
index: the intended behavior, broken only by the indexing slip. -/
theorem origin_global_to_local_identity :
    (origin 2 (fun d => if d = 0 then 3 else 2) (fun i => if i = 0 then 2 else 3)
        (fun i => if i = 0 then 1 else 0)
        (flattenRM 2 (fun i => if i = 0 then 2 else 3)
          (grid_owner 2 (fun d => if d = 0 then 3 else 2)
            (fun i => if i = 0 then 2 else 3) (fun i => if i = 0 then 1 else 0)
            (fun d => if d = 0 then 2 else 1))) 0
      + global_to_local 2 (fun d => if d = 0 then 3 else 2)
          (fun i => if i = 0 then 2 else 3) (fun i => if i = 0 then 1 else 0)
          (fun d => if d = 0 then 2 else 1) 0
      ≠ (fun d => if d = 0 then 2 else 1) 0)
    ∧ (∀ (G : Nat) (dataSize grid axes g : Nat → Nat),
        (∀ i, i < G → axes i = i) →
        (∀ i, i < G → 1 ≤ grid i) →
        (∀ d, d < G → g d < dataSize d) →
        ∀ d, d < G →
          origin G dataSize grid axes
              (flattenRM G grid (grid_owner G dataSize grid axes g)) d
            + global_to_local G dataSize grid axes g d = g d) := by
  constructor
  · decide
  · intro G dataSize grid axes g hax hgrid hg d hd
    have hbs : ∀ e, e < G →
        block_size G dataSize grid axes e = (dataSize e - 1) / grid e + 1 := by
      intro e he
      unfold block_size
      rw [partAxis_id G axes hax e, if_pos he]
    have hbspos : ∀ e, e < G → 0 < block_size G dataSize grid axes e := by
      intro e he
      rw [hbs e he]
      exact Nat.succ_pos _
    have howner : ∀ e, e < G → grid_owner G dataSize grid axes g e
        = g e / block_size G dataSize grid axes e := by
      intro e he
      unfold grid_owner
      rw [hax e he]
    have hownerlt : ∀ e, e < G → grid_owner G dataSize grid axes g e < grid e := by
      intro e he
      rw [howner e he, hbs e he]
      rw [Nat.div_lt_iff_lt_mul (by rw [← hbs e he]; exact hbspos e he)]
      have hmod := Nat.div_add_mod (dataSize e - 1) (grid e)
      have hmlt : (dataSize e - 1) % grid e < grid e := Nat.mod_lt _ (by
        have := hgrid e he
        omega)
      have hexpand : grid e * ((dataSize e - 1) / grid e + 1)
          = grid e * ((dataSize e - 1) / grid e) + grid e := by ring
      have hge := hg e he
      calc g e < dataSize e := hge
      _ ≤ grid e * ((dataSize e - 1) / grid e + 1) := by
        rw [hexpand]
        omega
    have hmulti : ∀ e, e < G →
        unflattenRM G grid (flattenRM G grid (grid_owner G dataSize grid axes g)) e
          = grid_owner G dataSize grid axes g e :=
      fun e he => unflatten_flatten grid _ G hownerlt e he
    have horig : origin G dataSize grid axes
        (flattenRM G grid (grid_owner G dataSize grid axes g)) d
        = block_size G dataSize grid axes d * (g d / block_size G dataSize grid axes d) := by
      unfold origin
      rw [partAxis_id G axes hax d, if_pos hd, hmulti d hd, howner d hd]
    have hl2l : global_to_local G dataSize grid axes g d
        = g d % block_size G dataSize grid axes d := rfl
    rw [horig, hl2l]
    exact Nat.div_add_mod (g d) (block_size G dataSize grid axes d)

/-- C2 witness: the identity-map part applied at `D = G = 1`,
`GlobalShape = [4]`, `ProcessorGrid = [2]`, `g = [3]`: block size `2`,
owner `1`, `origin = 2`, local index `1`, and `2 + 1 = 3`. -/
theorem origin_global_to_local_identity_witness :
    origin 1 (fun _ => 4) (fun _ => 2) (fun i => i)
        (flattenRM 1 (fun _ => 2)
          (grid_owner 1 (fun _ => 4) (fun _ => 2) (fun i => i) (fun _ => 3))) 0
      + global_to_local 1 (fun _ => 4) (fun _ => 2) (fun i => i) (fun _ => 3) 0
      = (fun _ => (3 : Nat)) 0 :=
  origin_global_to_local_identity.2 1 (fun _ => 4) (fun _ => 2) (fun i => i)
    (fun _ => 3) (fun i _ => rfl) (fun i _ => by norm_num) (fun d _ => by norm_num)
    0 (by norm_num)

/-- Hermite-style identity: the balanced block sizes computed by
`local_size` along one axis sum to the global extent. -/
lemma sum_div_range (P : Nat) (hP : 1 ≤ P) :
    ∀ N, ∑ j in Finset.range P, (N + j) / P = N := by
  intro N
  induction N with
  | zero =>
    apply Finset.sum_eq_zero
    intro j hj
    have hjlt := Finset.mem_range.mp hj
    rw [Nat.zero_add]
    exact Nat.div_eq_of_lt hjlt
  | succ N ih =>
    have A : (∑ k in Finset.range (P + 1), (N + k) / P)
        = (∑ k in Finset.range P, (N + (k + 1)) / P) + N / P := by
      simpa using Finset.sum_range_succ' (fun j => (N + j) / P) P
    have B : (∑ k in Finset.range (P + 1), (N + k) / P)
        = (∑ k in Finset.range P, (N + k) / P) + (N + P) / P := by
      simpa using Finset.sum_range_succ (fun j => (N + j) / P) P
    have C : (N + P) / P = N / P + 1 := by
      rw [Nat.add_div_right _ hP]
    have D : (∑ j in Finset.range P, (N + (j + 1)) / P)
        = (∑ j in Finset.range P, (N + j) / P) + 1 := by omega
    calc ∑ j in Finset.range P, (N + 1 + j) / P
        = ∑ j in Finset.range P, (N + (j + 1)) / P := by
          apply Finset.sum_congr rfl
          intro j _
          congr 1
          omega
    _ = (∑ j in Finset.range P, (N + j) / P) + 1 := D
    _ = N + 1 := by rw [ih]

/-- C9: the sum of `local_size` along a partitioned axis fails to equal
the global extent for a non-identity axis map, because `local_size`
reads `idxs[dim]` (the data axis) instead of `idxs[i]` (block.hpp line
64), so the summand never varies with the coordinate being summed: at
`D = G = 2`, `GlobalShape = [1,3]`, `ProcessorGrid = [2,1]`,
`AxisMap = [1,0]`, summing axis 1 over the two coordinates of grid axis
0 gives `2 + 2 = 4`, not the global extent `3`.  The second conjunct
proves the claimed sum identity does hold on the code whenever the axis
map is the identity (the default), for every data shape and positive
grid: the intended behavior, broken only by the indexing slip. -/
theorem local_size_sum_global_extent :
    ((∑ v in Finset.range 2,
        local_size 2 (fun d => if d = 0 then 1 else 3)
          (fun i => if i = 0 then 2 else 1) (fun i => if i = 0 then 1 else 0)
          (fun i => if i = 0 then v else 0) 1) = 4
      ∧ (4 : Nat) ≠ 3)
    ∧ (∀ (G : Nat) (dataSize grid axes : Nat → Nat),
        (∀ i, i < G → axes i = i) →
        (∀ i, i < G → 1 ≤ grid i) →
        ∀ i, i < G → ∀ q : Nat → Nat,
          (∑ v in Finset.range (grid i),
            local_size G dataSize grid axes (Function.update q i v) i)
            = dataSize i) := by
  constructor
  · constructor
    · decide
    · decide
  · intro G dataSize grid axes hax hgrid i hi q
    have hloc : ∀ v, local_size G dataSize grid axes (Function.update q i v) i
        = (dataSize i + grid i - v - 1) / grid i := by
      intro v
      unfold local_size
      rw [partAxis_id G axes hax i, if_pos hi, Function.update_same]
    have hPpos := hgrid i hi
    calc (∑ v in Finset.range (grid i),
            local_size G dataSize grid axes (Function.update q i v) i)
        = ∑ v in Finset.range (grid i), (dataSize i + (grid i - 1 - v)) / grid i := by
          apply Finset.sum_congr rfl
          intro v hv
          rw [hloc v]
          congr 1
          have hvlt := Finset.mem_range.mp hv
          omega
    _ = ∑ j in Finset.range (grid i), (dataSize i + j) / grid i :=
          Finset.sum_range_reflect (fun j => (dataSize i + j) / grid i) (grid i)
    _ = dataSize i := sum_div_range (grid i) hPpos (dataSize i)

/-- C9 witness: the identity-map part applied at `D = G = 1`,
`GlobalShape = [5]`, `ProcessorGrid = [2]`: local sizes `3 + 2 = 5`. -/
theorem local_size_sum_global_extent_witness :
    (∑ v in Finset.range ((fun _ => 2) 0),
        local_size 1 (fun _ => 5) (fun _ => 2) (fun i => i)
          (Function.update (fun _ => 0) 0 v) 0) = 5 :=
  local_size_sum_global_extent.2 1 (fun _ => 5) (fun _ => 2) (fun i => i)
    (fun i _ => rfl) (fun i _ => by norm_num) 0 (by norm_num) (fun _ => 0)

/-- Quotient of a decomposed sum. -/
lemma decomp_div_mod (q r M : Nat) (hM : 0 < M) (hr : r < M) :
    (q * M + r) / M = q ∧ (q * M + r) % M = r := by
  constructor
  · rw [mul_comm, Nat.mul_add_div hM, Nat.div_eq_of_lt hr, Nat.add_zero]
  · rw [mul_comm, Nat.mul_add_mod, Nat.mod_eq_of_lt hr]

/-- Uniqueness of the decomposition `q * M + r` with `r < M`. -/
lemma decomp_unique (M q r q' r' : Nat) (hM : 0 < M) (hr : r < M) (hr' : r' < M)
    (heq : q * M + r = q' * M + r') : q = q' ∧ r = r' := by
  have d1 := decomp_div_mod q r M hM hr
  have d2 := decomp_div_mod q' r' M hM hr'
  constructor
  · rw [← d1.1, ← d2.1, heq]
  · rw [← d1.2, ← d2.2, heq]

/-- Regrouping of the flattened global index of `bspredistr`:
`jglob = j2 * (c0 * np) + (j * c0 + j0)`. -/
lemma jglob_eq (g e0 t j : Nat) :
    bspredistr_jglob (2 ^ g) (2 ^ e0) t j
      = t / 2 ^ e0 * 2 ^ (e0 + g) + (j * 2 ^ e0 + t % 2 ^ e0) := by
  unfold bspredistr_jglob
  rw [pow_add]
  ring

/-- The within-group part `j * c0 + j0` of `jglob` is below `c0 * 2^f`
whenever the packet index is below `2^f`. -/
lemma u_lt (e0 f t j : Nat) (hj : j < 2 ^ f) :
    j * 2 ^ e0 + t % 2 ^ e0 < 2 ^ (e0 + f) := by
  have h0 : t % 2 ^ e0 < 2 ^ e0 := Nat.mod_lt _ (Nat.two_pow_pos e0)
  have h1 : j * 2 ^ e0 ≤ (2 ^ f - 1) * 2 ^ e0 := Nat.mul_le_mul_right _ (by omega)
  have h2 : (2 ^ f - 1) * 2 ^ e0 = 2 ^ (e0 + f) - 2 ^ e0 := by
    rw [Nat.sub_mul, one_mul]
    congr 1
    rw [← pow_add]
    congr 1
    omega
  have h3 : (2 : Nat) ^ e0 ≤ 2 ^ (e0 + f) := Nat.pow_le_pow_right (by norm_num) (by omega)
  rw [h2] at h1
  omega

/-- In a coarse-to-fine round (`ratio = 2^f ≤ np = 2^g`), destination
processor and offset of packet `j` from group position `t` have the
closed forms read off from the index algebra of `bspredistr`: the
destination offset is a multiple of the packet size `2^(g-f)` and does
not depend on `j`, while the destination processor encodes `j`, `t mod
c0`, and the group quotient. -/
lemma destA (g f e0 : Nat) (hfg : f ≤ g) (t j : Nat) (hj : j < 2 ^ f) :
    bspredistr_destproc (2 ^ g) (2 ^ (e0 + f)) (bspredistr_jglob (2 ^ g) (2 ^ e0) t j)
      = t / 2 ^ e0 / 2 ^ f * 2 ^ (e0 + f) + (j * 2 ^ e0 + t % 2 ^ e0)
    ∧ bspredistr_destindex (2 ^ g) (2 ^ (e0 + f)) (bspredistr_jglob (2 ^ g) (2 ^ e0) t j)
      = t / 2 ^ e0 % 2 ^ f * 2 ^ (g - f) := by
  have hu := u_lt e0 f t j hj
  have hjg := jglob_eq g e0 t j
  have hsplit : t / 2 ^ e0 * 2 ^ (e0 + g) + (j * 2 ^ e0 + t % 2 ^ e0)
      = t / 2 ^ e0 / 2 ^ f * 2 ^ (e0 + f + g)
        + (t / 2 ^ e0 % 2 ^ f * 2 ^ (e0 + g) + (j * 2 ^ e0 + t % 2 ^ e0)) := by
    have hdm := Nat.div_add_mod (t / 2 ^ e0) (2 ^ f)
    have hpw : (2 : Nat) ^ (e0 + f + g) = 2 ^ f * 2 ^ (e0 + g) := by
      rw [← pow_add]
      congr 1
      omega
    calc t / 2 ^ e0 * 2 ^ (e0 + g) + (j * 2 ^ e0 + t % 2 ^ e0)
        = (2 ^ f * (t / 2 ^ e0 / 2 ^ f) + t / 2 ^ e0 % 2 ^ f) * 2 ^ (e0 + g)
            + (j * 2 ^ e0 + t % 2 ^ e0) := by rw [hdm]
    _ = t / 2 ^ e0 / 2 ^ f * 2 ^ (e0 + f + g)
          + (t / 2 ^ e0 % 2 ^ f * 2 ^ (e0 + g) + (j * 2 ^ e0 + t % 2 ^ e0)) := by
        rw [hpw]
        ring
  have hrem : t / 2 ^ e0 % 2 ^ f * 2 ^ (e0 + g) + (j * 2 ^ e0 + t % 2 ^ e0)
      < 2 ^ (e0 + f + g) := by
    have hm : t / 2 ^ e0 % 2 ^ f < 2 ^ f := Nat.mod_lt _ (Nat.two_pow_pos f)
    have h1 : t / 2 ^ e0 % 2 ^ f * 2 ^ (e0 + g) ≤ (2 ^ f - 1) * 2 ^ (e0 + g) :=
      Nat.mul_le_mul_right _ (by omega)
    have h2 : (2 ^ f - 1) * 2 ^ (e0 + g) = 2 ^ (e0 + f + g) - 2 ^ (e0 + g) := by
      rw [Nat.sub_mul, one_mul]
      congr 1
      rw [← pow_add]
      congr 1
      omega
    have h3 : (2 : Nat) ^ (e0 + f) ≤ 2 ^ (e0 + g) :=
      Nat.pow_le_pow_right (by norm_num) (by omega)
    have h4 : (2 : Nat) ^ (e0 + g) ≤ 2 ^ (e0 + f + g) :=
      Nat.pow_le_pow_right (by norm_num) (by omega)
    rw [h2] at h1
    omega
  have hc1np : (2 : Nat) ^ (e0 + f) * 2 ^ g = 2 ^ (e0 + f + g) := by
    rw [← pow_add]
  have p2 : (2 : Nat) ^ (e0 + g) = 2 ^ (g - f) * 2 ^ (e0 + f) := by
    rw [← pow_add]
    congr 1
    omega
  constructor
  · unfold bspredistr_destproc
    rw [hjg, hsplit, hc1np]
    rw [(decomp_div_mod _ _ _ (Nat.two_pow_pos (e0 + f + g)) hrem).1]
    have hBIG : t / 2 ^ e0 / 2 ^ f * 2 ^ (e0 + f + g)
        + (t / 2 ^ e0 % 2 ^ f * 2 ^ (e0 + g) + (j * 2 ^ e0 + t % 2 ^ e0))
        = (t / 2 ^ e0 / 2 ^ f * 2 ^ g + t / 2 ^ e0 % 2 ^ f * 2 ^ (g - f))
            * 2 ^ (e0 + f) + (j * 2 ^ e0 + t % 2 ^ e0) := by
      rw [p2, ← hc1np]
      ring
    rw [hBIG, (decomp_div_mod _ _ _ (Nat.two_pow_pos (e0 + f)) hu).2]
  · unfold bspredistr_destindex
    rw [hjg, hsplit, hc1np]
    rw [(decomp_div_mod _ _ _ (Nat.two_pow_pos (e0 + f + g)) hrem).2]
    have hrem2 : t / 2 ^ e0 % 2 ^ f * 2 ^ (e0 + g) + (j * 2 ^ e0 + t % 2 ^ e0)
        = t / 2 ^ e0 % 2 ^ f * 2 ^ (g - f) * 2 ^ (e0 + f)
            + (j * 2 ^ e0 + t % 2 ^ e0) := by
      rw [p2]
      ring
    rw [hrem2, (decomp_div_mod _ _ _ (Nat.two_pow_pos (e0 + f)) hu).1]

/-- The flattened global index determines the source pair `(t, j)` when
the packet index is below `np`. -/
lemma jglob_inj (g e0 t t' j j' : Nat) (hj : j < 2 ^ g) (hj' : j' < 2 ^ g)
    (heq : bspredistr_jglob (2 ^ g) (2 ^ e0) t j
         = bspredistr_jglob (2 ^ g) (2 ^ e0) t' j') :
    t = t' ∧ j = j' := by
  rw [jglob_eq, jglob_eq] at heq
  have hu := u_lt e0 g t j hj
  have hu' := u_lt e0 g t' j' hj'
  have h1 := decomp_unique (2 ^ (e0 + g)) _ _ _ _ (Nat.two_pow_pos _) hu hu' heq
  have hm : t % 2 ^ e0 < 2 ^ e0 := Nat.mod_lt _ (Nat.two_pow_pos e0)
  have hm' : t' % 2 ^ e0 < 2 ^ e0 := Nat.mod_lt _ (Nat.two_pow_pos e0)
  have h2 := decomp_unique (2 ^ e0) _ _ _ _ (Nat.two_pow_pos _) hm hm' h1.2
  refine ⟨?_, h2.1⟩
  have ht := Nat.div_add_mod t (2 ^ e0)
  have ht' := Nat.div_add_mod t' (2 ^ e0)
  rw [h1.1, h2.2] at ht
  omega

/-- Destination processor and offset together determine the flattened
global index. -/
lemma dest_determines_jglob (g e1 x y : Nat)
    (hp : bspredistr_destproc (2 ^ g) (2 ^ e1) x
        = bspredistr_destproc (2 ^ g) (2 ^ e1) y)
    (hi : bspredistr_destindex (2 ^ g) (2 ^ e1) x
        = bspredistr_destindex (2 ^ g) (2 ^ e1) y) :
    x = y := by
  unfold bspredistr_destproc at hp
  unfold bspredistr_destindex at hi
  have hx1 : x % 2 ^ e1 < 2 ^ e1 := Nat.mod_lt _ (Nat.two_pow_pos e1)
  have hy1 : y % 2 ^ e1 < 2 ^ e1 := Nat.mod_lt _ (Nat.two_pow_pos e1)
  have h1 := decomp_unique (2 ^ e1) _ _ _ _ (Nat.two_pow_pos _) hx1 hy1 hp
  have hmm : x % (2 ^ e1 * 2 ^ g) % 2 ^ e1 = x % 2 ^ e1 :=
    Nat.mod_mod_of_dvd x (dvd_mul_right _ _)
  have hmm' : y % (2 ^ e1 * 2 ^ g) % 2 ^ e1 = y % 2 ^ e1 :=
    Nat.mod_mod_of_dvd y (dvd_mul_right _ _)
  have h2 : x % (2 ^ e1 * 2 ^ g) = y % (2 ^ e1 * 2 ^ g) := by
    have ex := Nat.div_add_mod (x % (2 ^ e1 * 2 ^ g)) (2 ^ e1)
    have ey := Nat.div_add_mod (y % (2 ^ e1 * 2 ^ g)) (2 ^ e1)
    rw [hi, hmm, h1.2, ← hmm'] at ex
    omega
  have ex2 := Nat.div_add_mod x (2 ^ e1 * 2 ^ g)
  have ey2 := Nat.div_add_mod y (2 ^ e1 * 2 ^ g)
  rw [h1.1, h2] at ex2
  omega

/-- The destination processor computed by `bspredistr` is a valid rank:
below `p = c1 * (p / c1)`, for any packet index below `np`. -/
lemma destproc_lt (g f e0 h t j : Nat) (ht : t < 2 ^ (e0 + f + h)) (hj : j < 2 ^ g) :
    bspredistr_destproc (2 ^ g) (2 ^ (e0 + f)) (bspredistr_jglob (2 ^ g) (2 ^ e0) t j)
      < 2 ^ (e0 + f + h) := by
  have hu := u_lt e0 g t j hj
  have hjg := jglob_eq g e0 t j
  have hj2 : t / 2 ^ e0 < 2 ^ (f + h) := by
    rw [Nat.div_lt_iff_lt_mul (Nat.two_pow_pos e0)]
    calc t < 2 ^ (e0 + f + h) := ht
    _ = 2 ^ (f + h) * 2 ^ e0 := by
      rw [← pow_add]
      congr 1
      omega
  have hjglt : bspredistr_jglob (2 ^ g) (2 ^ e0) t j < 2 ^ (e0 + f + h + g) := by
    rw [hjg]
    have h1 : t / 2 ^ e0 * 2 ^ (e0 + g) ≤ (2 ^ (f + h) - 1) * 2 ^ (e0 + g) :=
      Nat.mul_le_mul_right _ (by omega)
    have h2 : (2 ^ (f + h) - 1) * 2 ^ (e0 + g) = 2 ^ (e0 + f + h + g) - 2 ^ (e0 + g) := by
      rw [Nat.sub_mul, one_mul]
      congr 1
      rw [← pow_add]
      congr 1
      omega
    have h3 : (2 : Nat) ^ (e0 + g) ≤ 2 ^ (e0 + f + h + g) :=
      Nat.pow_le_pow_right (by norm_num) (by omega)
    rw [h2] at h1
    omega
  unfold bspredistr_destproc
  have hc1np : (2 : Nat) ^ (e0 + f) * 2 ^ g = 2 ^ (e0 + f + g) := by
    rw [← pow_add]
  rw [hc1np]
  have hq : bspredistr_jglob (2 ^ g) (2 ^ e0) t j / 2 ^ (e0 + f + g) < 2 ^ h := by
    rw [Nat.div_lt_iff_lt_mul (Nat.two_pow_pos _)]
    calc bspredistr_jglob (2 ^ g) (2 ^ e0) t j < 2 ^ (e0 + f + h + g) := hjglt
    _ = 2 ^ h * 2 ^ (e0 + f + g) := by
      rw [← pow_add]
      congr 1
      omega
  have hmr : bspredistr_jglob (2 ^ g) (2 ^ e0) t j % 2 ^ (e0 + f) < 2 ^ (e0 + f) :=
    Nat.mod_lt _ (Nat.two_pow_pos _)
  have h1 : bspredistr_jglob (2 ^ g) (2 ^ e0) t j / 2 ^ (e0 + f + g) * 2 ^ (e0 + f)
      ≤ (2 ^ h - 1) * 2 ^ (e0 + f) := Nat.mul_le_mul_right _ (by omega)
  have h2 : (2 ^ h - 1) * 2 ^ (e0 + f) = 2 ^ (e0 + f + h) - 2 ^ (e0 + f) := by
    rw [Nat.sub_mul, one_mul]
    congr 1
    rw [← pow_add]
    congr 1
    omega
  have h3 : (2 : Nat) ^ (e0 + f) ≤ 2 ^ (e0 + f + h) :=
    Nat.pow_le_pow_right (by norm_num) (by omega)
  rw [h2] at h1
  omega

/-- Packet size and packet count of a round, in closed form, when
`ratio = 2^f ≤ np = 2^g`. -/
lemma size_npackets_coarse (g f : Nat) (hfg : f ≤ g) :
    bspredistr_size (2 ^ g) (2 ^ f) = 2 ^ (g - f)
    ∧ bspredistr_npackets (2 ^ g) (bspredistr_size (2 ^ g) (2 ^ f)) = 2 ^ f := by
  have hsz : bspredistr_size (2 ^ g) (2 ^ f) = 2 ^ (g - f) := by
    unfold bspredistr_size
    rw [Nat.pow_div hfg (by norm_num)]
    exact Nat.max_eq_left Nat.one_le_two_pow
  refine ⟨hsz, ?_⟩
  unfold bspredistr_npackets
  rw [hsz, Nat.pow_div (by omega) (by norm_num)]
  congr 1
  omega

/-- Packet size and packet count of a round, in closed form, when
`ratio = 2^f > np = 2^g` (one-element packets). -/
lemma size_npackets_fine (g f : Nat) (hgf : g < f) :
    bspredistr_size (2 ^ g) (2 ^ f) = 1
    ∧ bspredistr_npackets (2 ^ g) (bspredistr_size (2 ^ g) (2 ^ f)) = 2 ^ g := by
  have hsz : bspredistr_size (2 ^ g) (2 ^ f) = 1 := by
    unfold bspredistr_size
    rw [Nat.div_eq_of_lt (Nat.pow_lt_pow_right (by norm_num) hgf)]
    rfl
  refine ⟨hsz, ?_⟩
  unfold bspredistr_npackets
  rw [hsz, Nat.div_one]

/-- Core of C10 in exponent form: with `np = 2^g`, `c0 = 2^e0`,
`c1 = 2^(e0+f)`, `p = 2^(e0+f+h)`, every gather read, destination rank
and destination range of `bspredistr` is in bounds. -/
lemma bspredistr_bounds_core (g f e0 h t j r : Nat)
    (ht : t < 2 ^ (e0 + f + h))
    (hj : j < bspredistr_npackets (2 ^ g) (bspredistr_size (2 ^ g) (2 ^ f)))
    (hr : r < bspredistr_size (2 ^ g) (2 ^ f)) :
    j + r * 2 ^ f < 2 ^ g
    ∧ bspredistr_destproc (2 ^ g) (2 ^ (e0 + f))
        (bspredistr_jglob (2 ^ g) (2 ^ e0) t j) < 2 ^ (e0 + f + h)
    ∧ bspredistr_destindex (2 ^ g) (2 ^ (e0 + f))
        (bspredistr_jglob (2 ^ g) (2 ^ e0) t j)
        + bspredistr_size (2 ^ g) (2 ^ f) ≤ 2 ^ g := by
  rcases le_or_lt f g with hfg | hgf
  · obtain ⟨hsz, hnpk⟩ := size_npackets_coarse g f hfg
    rw [hnpk] at hj
    rw [hsz] at hr ⊢
    have hjg : j < 2 ^ g := by
      have : (2 : Nat) ^ f ≤ 2 ^ g := Nat.pow_le_pow_right (by norm_num) hfg
      omega
    refine ⟨?_, destproc_lt g f e0 h t j ht hjg, ?_⟩
    · have h1 : r * 2 ^ f ≤ (2 ^ (g - f) - 1) * 2 ^ f := Nat.mul_le_mul_right _ (by omega)
      have h2 : (2 ^ (g - f) - 1) * 2 ^ f = 2 ^ g - 2 ^ f := by
        rw [Nat.sub_mul, one_mul]
        congr 1
        rw [← pow_add]
        congr 1
        omega
      have h3 : (2 : Nat) ^ f ≤ 2 ^ g := Nat.pow_le_pow_right (by norm_num) hfg
      rw [h2] at h1
      omega
    · rw [(destA g f e0 hfg t j hj).2]
      have hm : t / 2 ^ e0 % 2 ^ f < 2 ^ f := Nat.mod_lt _ (Nat.two_pow_pos f)
      have h1 : t / 2 ^ e0 % 2 ^ f * 2 ^ (g - f) ≤ (2 ^ f - 1) * 2 ^ (g - f) :=
        Nat.mul_le_mul_right _ (by omega)
      have h2 : (2 ^ f - 1) * 2 ^ (g - f) = 2 ^ g - 2 ^ (g - f) := by
        rw [Nat.sub_mul, one_mul]
        congr 1
        rw [← pow_add]
        congr 1
        omega
      have h3 : (2 : Nat) ^ (g - f) ≤ 2 ^ g := Nat.pow_le_pow_right (by norm_num) (by omega)
      rw [h2] at h1
      omega
  · obtain ⟨hsz, hnpk⟩ := size_npackets_fine g f hgf
    rw [hnpk] at hj
    rw [hsz] at hr ⊢
    have hr0 : r = 0 := by omega
    subst hr0
    refine ⟨by simpa using hj, destproc_lt g f e0 h t j ht hj, ?_⟩
    have hdi : bspredistr_destindex (2 ^ g) (2 ^ (e0 + f))
        (bspredistr_jglob (2 ^ g) (2 ^ e0) t j) < 2 ^ g := by
      unfold bspredistr_destindex
      rw [Nat.div_lt_iff_lt_mul (Nat.two_pow_pos (e0 + f))]
      calc bspredistr_jglob (2 ^ g) (2 ^ e0) t j % (2 ^ (e0 + f) * 2 ^ g)
          < 2 ^ (e0 + f) * 2 ^ g := Nat.mod_lt _ (by positivity)
      _ = 2 ^ g * 2 ^ (e0 + f) := mul_comm _ _
    omega

/-- Core of C7 in exponent form: two distinct `(group position, packet)`
pairs that target the same destination processor write to disjoint
destination ranges. -/
lemma bspredistr_disjoint_core (g f e0 h t t' j j' : Nat)
    (ht : t < 2 ^ (e0 + f + h)) (ht' : t' < 2 ^ (e0 + f + h))
    (hj : j < bspredistr_npackets (2 ^ g) (bspredistr_size (2 ^ g) (2 ^ f)))
    (hj' : j' < bspredistr_npackets (2 ^ g) (bspredistr_size (2 ^ g) (2 ^ f)))
    (hne : t ≠ t' ∨ j ≠ j')
    (hdp : bspredistr_destproc (2 ^ g) (2 ^ (e0 + f))
          (bspredistr_jglob (2 ^ g) (2 ^ e0) t j)
        = bspredistr_destproc (2 ^ g) (2 ^ (e0 + f))
          (bspredistr_jglob (2 ^ g) (2 ^ e0) t' j')) :
    bspredistr_destindex (2 ^ g) (2 ^ (e0 + f))
        (bspredistr_jglob (2 ^ g) (2 ^ e0) t j)
        + bspredistr_size (2 ^ g) (2 ^ f)
      ≤ bspredistr_destindex (2 ^ g) (2 ^ (e0 + f))
          (bspredistr_jglob (2 ^ g) (2 ^ e0) t' j')
    ∨ bspredistr_destindex (2 ^ g) (2 ^ (e0 + f))
          (bspredistr_jglob (2 ^ g) (2 ^ e0) t' j')
        + bspredistr_size (2 ^ g) (2 ^ f)
      ≤ bspredistr_destindex (2 ^ g) (2 ^ (e0 + f))
          (bspredistr_jglob (2 ^ g) (2 ^ e0) t j) := by
  rcases le_or_lt f g with hfg | hgf
  · obtain ⟨hsz, hnpk⟩ := size_npackets_coarse g f hfg
    rw [hnpk] at hj hj'
    have dA := destA g f e0 hfg t j hj
    have dA' := destA g f e0 hfg t' j' hj'
    rw [dA.1, dA'.1] at hdp
    have hu := u_lt e0 f t j hj
    have hu' := u_lt e0 f t' j' hj'
    have h1 := decomp_unique (2 ^ (e0 + f)) _ _ _ _ (Nat.two_pow_pos _) hu hu' hdp
    have hm : t % 2 ^ e0 < 2 ^ e0 := Nat.mod_lt _ (Nat.two_pow_pos e0)
    have hm' : t' % 2 ^ e0 < 2 ^ e0 := Nat.mod_lt _ (Nat.two_pow_pos e0)
    have h2 := decomp_unique (2 ^ e0) _ _ _ _ (Nat.two_pow_pos _) hm hm' h1.2
    have htt : t ≠ t' := by
      rcases hne with hcase | hcase
      · exact hcase
      · exact absurd h2.1 hcase
    have hX : t / 2 ^ e0 % 2 ^ f ≠ t' / 2 ^ e0 % 2 ^ f := by
      intro hXeq
      apply htt
      have e1t := Nat.div_add_mod (t / 2 ^ e0) (2 ^ f)
      have e1t' := Nat.div_add_mod (t' / 2 ^ e0) (2 ^ f)
      rw [h1.1, hXeq] at e1t
      have hdeq : t / 2 ^ e0 = t' / 2 ^ e0 := by omega
      have e2t := Nat.div_add_mod t (2 ^ e0)
      have e2t' := Nat.div_add_mod t' (2 ^ e0)
      rw [hdeq, h2.2] at e2t
      omega
    rw [dA.2, dA'.2, hsz]
    rcases Nat.lt_or_ge (t / 2 ^ e0 % 2 ^ f) (t' / 2 ^ e0 % 2 ^ f) with hlt | hge
    · left
      calc t / 2 ^ e0 % 2 ^ f * 2 ^ (g - f) + 2 ^ (g - f)
          = (t / 2 ^ e0 % 2 ^ f + 1) * 2 ^ (g - f) := by ring
      _ ≤ t' / 2 ^ e0 % 2 ^ f * 2 ^ (g - f) := Nat.mul_le_mul_right _ (by omega)
    · have hgt : t' / 2 ^ e0 % 2 ^ f < t / 2 ^ e0 % 2 ^ f := by omega
      right
      calc t' / 2 ^ e0 % 2 ^ f * 2 ^ (g - f) + 2 ^ (g - f)
          = (t' / 2 ^ e0 % 2 ^ f + 1) * 2 ^ (g - f) := by ring
      _ ≤ t / 2 ^ e0 % 2 ^ f * 2 ^ (g - f) := Nat.mul_le_mul_right _ (by omega)
  · obtain ⟨hsz, hnpk⟩ := size_npackets_fine g f hgf
    rw [hnpk] at hj hj'
    rw [hsz]
    have hne2 : bspredistr_destindex (2 ^ g) (2 ^ (e0 + f))
          (bspredistr_jglob (2 ^ g) (2 ^ e0) t j)
        ≠ bspredistr_destindex (2 ^ g) (2 ^ (e0 + f))
          (bspredistr_jglob (2 ^ g) (2 ^ e0) t' j') := by
      intro hdi
      have hjgeq := dest_determines_jglob g (e0 + f) _ _ hdp hdi
      have hinj := jglob_inj g e0 t t' j j' hj hj' hjgeq
      rcases hne with hcase | hcase
      · exact hcase hinj.1
      · exact hcase hinj.2
    omega

/-- C10: under the preconditions of `bspredistr` (`n`, `p`, `c0`, `c1`
powers of two, `1 ≤ c0 ≤ c1 ≤ p ≤ n`, the group position `t` — the rank
`s`, or `rho_p[s]` in reversed mode — below `p`), every gather read index
`j + r * ratio` lies in `[0, np)`, the destination processor lies in
`[0, p)`, and the destination range satisfies
`destindex + size ≤ np`, so no buffer access of the redistribution step
is out of range. -/
theorem bspredistr_in_bounds (n p c0 c1 a b e0 e1 t j r : Nat)
    (hn : n = 2 ^ a) (hp : p = 2 ^ b) (hc0 : c0 = 2 ^ e0) (hc1 : c1 = 2 ^ e1)
    (h01 : e0 ≤ e1) (h1b : e1 ≤ b) (hba : b ≤ a)
    (ht : t < p)
    (hj : j < bspredistr_npackets (n / p) (bspredistr_size (n / p) (bspredistr_ratio c0 c1)))
    (hr : r < bspredistr_size (n / p) (bspredistr_ratio c0 c1)) :
    j + r * bspredistr_ratio c0 c1 < n / p
    ∧ bspredistr_destproc (n / p) c1 (bspredistr_jglob (n / p) c0 t j) < p
    ∧ bspredistr_destindex (n / p) c1 (bspredistr_jglob (n / p) c0 t j)
        + bspredistr_size (n / p) (bspredistr_ratio c0 c1) ≤ n / p := by
  subst hn hp hc0 hc1
  have hnp : (2 : Nat) ^ a / 2 ^ b = 2 ^ (a - b) := Nat.pow_div hba (by norm_num)
  have hrat : bspredistr_ratio (2 ^ e0) (2 ^ e1) = 2 ^ (e1 - e0) := by
    unfold bspredistr_ratio
    exact Nat.pow_div h01 (by norm_num)
  rw [hnp, hrat] at hj hr ⊢
  have hE1 : e0 + (e1 - e0) = e1 := by omega
  have hEp : e1 + (b - e1) = b := by omega
  have core := bspredistr_bounds_core (a - b) (e1 - e0) e0 (b - e1) t j r
    (by rw [hE1, hEp]; exact ht) hj hr
  rw [hE1, hEp] at core
  exact core

/-- C10 witness: the bounds theorem applied at `n = 8`, `p = 4`,
`c0 = 1`, `c1 = 2`, `t = 1`, packet `j = 0`, element `r = 0`. -/
theorem bspredistr_in_bounds_witness :
    0 + 0 * bspredistr_ratio 1 2 < 8 / 4
    ∧ bspredistr_destproc (8 / 4) 2 (bspredistr_jglob (8 / 4) 1 1 0) < 4
    ∧ bspredistr_destindex (8 / 4) 2 (bspredistr_jglob (8 / 4) 1 1 0)
        + bspredistr_size (8 / 4) (bspredistr_ratio 1 2) ≤ 8 / 4 :=
  bspredistr_in_bounds 8 4 1 2 3 2 0 1 1 0 0 (by norm_num) (by norm_num)
    (by norm_num) (by norm_num) (by norm_num) (by norm_num) (by norm_num)
    (by norm_num) (by decide) (by decide)

/-- C7: within one redistribution round of `bspredistr` (`n`, `p`,
`c0`, `c1` powers of two with `1 ≤ c0 ≤ c1 ≤ p ≤ n`), any two distinct
`(group position, packet index)` pairs that target the same destination
processor have disjoint destination ranges
`[destindex, destindex + size)`, so no two packet writes alias.  The
group position is the rank `s` itself, or `rho_p[s]` on the first
(reversed) round; the second conjunct shows the bit-reversal table is
injective on `[0, p)`, so distinct source ranks give distinct group
positions in both addressing modes. -/
theorem bspredistr_destinations_disjoint :
    (∀ n p c0 c1 a b e0 e1 t t' j j' : Nat,
      n = 2 ^ a → p = 2 ^ b → c0 = 2 ^ e0 → c1 = 2 ^ e1 →
      e0 ≤ e1 → e1 ≤ b → b ≤ a →
      t < p → t' < p →
      j < bspredistr_npackets (n / p) (bspredistr_size (n / p) (bspredistr_ratio c0 c1)) →
      j' < bspredistr_npackets (n / p) (bspredistr_size (n / p) (bspredistr_ratio c0 c1)) →
      (t ≠ t' ∨ j ≠ j') →
      bspredistr_destproc (n / p) c1 (bspredistr_jglob (n / p) c0 t j)
        = bspredistr_destproc (n / p) c1 (bspredistr_jglob (n / p) c0 t' j') →
      (bspredistr_destindex (n / p) c1 (bspredistr_jglob (n / p) c0 t j)
          + bspredistr_size (n / p) (bspredistr_ratio c0 c1)
        ≤ bspredistr_destindex (n / p) c1 (bspredistr_jglob (n / p) c0 t' j')
      ∨ bspredistr_destindex (n / p) c1 (bspredistr_jglob (n / p) c0 t' j')
          + bspredistr_size (n / p) (bspredistr_ratio c0 c1)
        ≤ bspredistr_destindex (n / p) c1 (bspredistr_jglob (n / p) c0 t j)))
    ∧ (∀ m s s' : Nat, s < 2 ^ m → s' < 2 ^ m →
        (bitrev_init (2 ^ m)).getD s 0 = (bitrev_init (2 ^ m)).getD s' 0 → s = s') := by
  constructor
  · intro n p c0 c1 a b e0 e1 t t' j j' hn hp hc0 hc1 h01 h1b hba ht ht' hj hj' hne hdp
    subst hn hp hc0 hc1
    have hnp : (2 : Nat) ^ a / 2 ^ b = 2 ^ (a - b) := Nat.pow_div hba (by norm_num)
    have hrat : bspredistr_ratio (2 ^ e0) (2 ^ e1) = 2 ^ (e1 - e0) := by
      unfold bspredistr_ratio
      exact Nat.pow_div h01 (by norm_num)
    rw [hnp, hrat] at hj hj' ⊢
    rw [hnp] at hdp
    have hE1 : e0 + (e1 - e0) = e1 := by omega
    have hEp : e1 + (b - e1) = b := by omega
    have core := bspredistr_disjoint_core (a - b) (e1 - e0) e0 (b - e1) t t' j j'
      (by rw [hE1, hEp]; exact ht) (by rw [hE1, hEp]; exact ht') hj hj' hne
      (by rw [hE1]; exact hdp)
    rw [hE1] at core
    exact core
  · intro m s s' hs hs' heq
    rw [bitrev_init_getD m s hs, bitrev_init_getD m s' hs'] at heq
    have h1 := revBits_revBits m s hs
    rw [heq, revBits_revBits m s' hs'] at h1
    exact h1.symm

/-- C7 witness: the disjointness theorem applied at `n = 8`, `p = 4`,
`c0 = 1`, `c1 = 2` to the pairs `(t, j) = (0, 0)` and `(1, 0)`: both
target processor 0, at offsets 0 and 1 with packet size 1. -/
theorem bspredistr_destinations_disjoint_witness :
    bspredistr_destindex (8 / 4) 2 (bspredistr_jglob (8 / 4) 1 0 0)
        + bspredistr_size (8 / 4) (bspredistr_ratio 1 2)
      ≤ bspredistr_destindex (8 / 4) 2 (bspredistr_jglob (8 / 4) 1 1 0)
    ∨ bspredistr_destindex (8 / 4) 2 (bspredistr_jglob (8 / 4) 1 1 0)
        + bspredistr_size (8 / 4) (bspredistr_ratio 1 2)
      ≤ bspredistr_destindex (8 / 4) 2 (bspredistr_jglob (8 / 4) 1 0 0) :=
  bspredistr_destinations_disjoint.1 8 4 1 2 3 2 0 1 0 1 0 0 (by norm_num)
    (by norm_num) (by norm_num) (by norm_num) (by norm_num) (by norm_num)
    (by norm_num) (by norm_num) (by norm_num) (by decide) (by decide)
    (by left; norm_num) (by decide)

/-- C8 counterexample: at `n = 8`, `p = 4` (`np = 2`) the code computes
`k1 = n / 4 = 2` and counts two redistribution rounds
(`c = 2` and `c = 4`), while the claimed formula gives
`ceil(log_np (p / k1)) = log_2 (4 / 2) = 1` (the third conjunct shows
`p / k1` is exactly `np ^ 1`). -/
theorem round_count_counterexample :
    k1LoopF 2 4 10 1 = some 4
    ∧ countLoopF 2 4 10 (8 / 4) = some 2
    ∧ 4 / (8 / 4) = 2 ^ 1
    ∧ (2 : Nat) ≠ 1 := by
  decide

end Bulk
